import Mathlib

/-!
Verification development for the MeKB core scripts.

This file gives a shallow embedding, in Lean 4, of the algorithmic core of the
MeKB repository and proves (or refutes) the frozen list of claims about it.
The embedded code lives in four scripts:

* scripts/build-index.py  : SQLite FTS5 lexical index builder,
* scripts/build-embeddings.py : vector embedding store builder,
* scripts/build-graph.py  : knowledge graph builder with BFS traversal and
  shortest path queries,
* scripts/search.py       : FTS5 search, cosine similarity vector search and
  reciprocal rank fusion.

Modelling conventions, stated once here:

* A markdown file is modelled as a `Note` carrying the fields that the
  scripts regex-scrape out of the frontmatter and body.  The regex layer
  itself (WIKILINK_PATTERN, FM_PATTERN, extract_field, extract_list) is the
  embedding boundary: a `Note` holds the already-extracted raw wiki-link
  texts, typed relationship declarations and scalar fields, exactly the
  values those regexes produce.  Optional fields are `Option String` with
  `none` for an absent, null or empty value (extract_field maps the strings
  "null", "~" and "" to Python `None`).
* File modification times (the freshness tokens) are natural numbers.
* Python floats are modelled as exact rationals; the real-valued cosine
  similarity uses `Real.sqrt` on the rational sums of squares.
* The SQLite notes table and the external-content FTS5 virtual table are
  modelled as two row lists inside `IndexDB`.  The INSERT/DELETE/UPDATE
  triggers of create_schema are folded into the table operations.  Rows are
  keyed by path (the path column is UNIQUE, and rowid/id is in bijection
  with path), so the FTS mirror is keyed by path as well.
* The BM25 MATCH step of SQLite is an oracle parameter: a function from the
  MATCH query to either a syntax error or a row predicate.  Result order
  coming from BM25 rank is not modelled; the claims about lexical search
  only concern membership and emptiness of result lists.
* Python dict iteration order is insertion order; a Python set is modelled
  as `List.dedup` of the insertion sequence (the claims never depend on the
  iteration order of a set, only on its extension).
-/

/-- One parsed markdown note, the common input of all three builders.
`bodyLinks` and `fmLinks` are the raw texts captured by WIKILINK_PATTERN in
the body and the frontmatter; `relationships` are the (type, raw target)
pairs produced by extract_relationships. -/
structure Note where
  path : String
  stem : String
  title : Option String
  noteType : Option String
  classification : Option String
  tags : List String
  created : Option String
  status : Option String
  verified : Option String
  encrypted : Bool
  body : String
  bodyLinks : List String
  fmLinks : List String
  relationships : List (String × String)
  mtime : Nat
deriving DecidableEq, Repr

/-- A row of the notes table built by build-index.py (create_schema).
The classification column is nullable in the schema, hence `Option String`;
index_note always stores the defaulted value but search still COALESCEs. -/
structure NoteRow where
  path : String
  title : String
  noteType : Option String
  created : Option String
  tags : String
  classification : Option String
  encrypted : Bool
  status : Option String
  verified : Option String
  content : String
  mtime : Nat
deriving DecidableEq, Repr

/-- The search.db state: the notes content table and the external-content
FTS5 index.  `fts` is the set of rows currently present in the FTS inverted
index; a MATCH query can only return rows present there. -/
structure IndexDB where
  notes : List NoteRow
  fts : List NoteRow
deriving DecidableEq, Repr

def emptyIndexDB : IndexDB := { notes := [], fts := [] }

/-- Join tags with a comma, as build-index.py does with ", ".join. -/
def joinTags : List String → String
  | [] => ""
  | [t] => t
  | t :: ts => t ++ ", " ++ joinTags ts

/-- The row that index_note builds for a non-secret note: frontmatter fields
with defaults applied (title defaults to the stem, classification to
"personal") and the body replaced by "[ENCRYPTED]" for encrypted notes. -/
def rowOfNote (n : Note) : NoteRow :=
  { path := n.path
    title := n.title.getD n.stem
    noteType := n.noteType
    created := n.created
    tags := joinTags n.tags
    classification := some (n.classification.getD "personal")
    encrypted := n.encrypted
    status := n.status
    verified := n.verified
    content := if n.encrypted then "[ENCRYPTED]" else n.body
    mtime := n.mtime }

/-- SELECT mtime FROM notes WHERE path = ? (path is UNIQUE). -/
def dbLookup (db : IndexDB) (p : String) : Option NoteRow :=
  db.notes.find? (fun r => r.path = p)

/-- DELETE FROM notes WHERE path = ?; the notes_ad trigger removes the row
from the FTS index as well. -/
def deleteNote (db : IndexDB) (p : String) : IndexDB :=
  { notes := db.notes.filter (fun r => r.path ≠ p)
    fts := db.fts.filter (fun r => r.path ≠ p) }

/-- INSERT ... ON CONFLICT(path) DO UPDATE; the notes_ai / notes_au triggers
mirror the change into the FTS index. -/
def upsertNote (db : IndexDB) (r : NoteRow) : IndexDB :=
  if (db.notes.find? (fun q => q.path = r.path)).isSome then
    { notes := db.notes.map (fun q => if q.path = r.path then r else q)
      fts := db.fts.filter (fun q => q.path ≠ r.path) ++ [r] }
  else
    { notes := db.notes ++ [r], fts := db.fts ++ [r] }

/-- index_note of build-index.py.  Returns the updated database and the
changed flag.  The freshness check (existing mtime already ≥ the current
mtime) happens before the secret check, exactly as in the source. -/
def index_note (db : IndexDB) (n : Note) : IndexDB × Bool :=
  match dbLookup db n.path with
  | some row =>
      if n.mtime ≤ row.mtime then (db, false)
      else if n.classification.getD "personal" = "secret" then
        (deleteNote db n.path, false)
      else (upsertNote db (rowOfNote n), true)
  | none =>
      if n.classification.getD "personal" = "secret" then
        (deleteNote db n.path, false)
      else (upsertNote db (rowOfNote n), true)

/-- remove_deleted of build-index.py: drop rows whose path is no longer on
disk.  Returns the new database and the number of removed rows. -/
def remove_deleted (db : IndexDB) (current : List String) : IndexDB × Nat :=
  let deleted := (db.notes.map (fun r => r.path)).filter (fun p => p ∉ current)
  (deleted.foldl (fun d p => deleteNote d p) db, deleted.length)

/-- rebuild_fts: the FTS5 rebuild command repopulates the inverted index
from the content table. -/
def rebuild_fts (db : IndexDB) : IndexDB :=
  { db with fts := db.notes }

/-- create_schema: the content tables are CREATE IF NOT EXISTS (preserved),
but the FTS5 virtual table is dropped and recreated, so the inverted index
starts empty on every run. -/
def create_schema (db : IndexDB) : IndexDB :=
  { db with fts := [] }

/-- The main build loop of build-index.py: create_schema, index every
collected note, remove deleted rows, and rebuild the FTS index only when at
least one row changed.  Returns the database, the number indexed and the
number removed. -/
def build_index (db : IndexDB) (docs : List Note) : IndexDB × Nat × Nat :=
  let db0 := create_schema db
  let step := fun (st : IndexDB × Nat) (n : Note) =>
    let (d, c) := st
    let (d2, updated) := index_note d n
    (d2, if updated then c + 1 else c)
  let (db1, indexed) := docs.foldl step (db0, 0)
  let (db2, removed) := remove_deleted db1 (docs.map (fun n => n.path))
  let db3 := if indexed > 0 ∨ removed > 0 then rebuild_fts db2 else db2
  (db3, indexed, removed)

/-! ## search.py: query sanitisation and FTS5 search with syntax-error fallback -/

/-- The FTS5 operator characters removed by sanitise_fts_query. -/
def opChars : List Char := ['{', '}', '(', ')', '[', ']', '^', '~']

/-- A regex word character (the \w class, ASCII part). -/
def isWordChar (c : Char) : Bool := c.isAlphanum || c = '_'

/-- Python str.split() with no argument: split on whitespace runs, dropping
empty pieces.  Queries are modelled as lists of characters. -/
def splitWs (l : List Char) : List (List Char) :=
  (l.foldr
    (fun c acc =>
      if c.isWhitespace then [] :: acc
      else
        match acc with
        | [] => [[c]]
        | w :: ws => (c :: w) :: ws)
    []).filter (fun w => w ≠ [])

/-- Python " ".join of a list of terms. -/
def joinSpace : List (List Char) → List Char
  | [] => []
  | [t] => t
  | t :: ts => t ++ ' ' :: joinSpace ts

/-- Uppercase a term, as Python str.upper (ASCII part). -/
def upperTerm (t : List Char) : List Char := t.map Char.toUpper

/-- sanitise_fts_query of search.py: quoted phrases pass through verbatim;
otherwise the FTS5 operator characters are removed, the query is split into
terms, and for a multi-term query the boolean keywords are dropped and the
terms rejoined with spaces. -/
def sanitise_fts_query (q : List Char) : List Char :=
  if q.head? = some '"' ∧ q.getLast? = some '"' then q
  else
    match splitWs (q.filter (fun c => ¬ (c ∈ opChars))) with
    | [] => []
    | [t] => t
    | ts =>
        joinSpace (ts.filter (fun t =>
          upperTerm t ∉ [['A','N','D'], ['O','R'], ['N','O','T'], ['N','E','A','R']]))

/-- The fallback query built on an FTS5 syntax error:
re.sub removing every character that is neither a word character nor
whitespace, applied to the original query. -/
def simplifyQuery (q : List Char) : List Char :=
  q.filter (fun c => isWordChar c || c.isWhitespace)

/-- The SQL query of fts5_search for one MATCH string: rows of the notes
table that are present in the FTS index and match (the JOIN on rowid), with
the optional type filter and the classification exclusion applied via
COALESCE(classification, 'personal').  The engine oracle either reports an
FTS5 syntax error or yields the MATCH predicate on indexed rows. -/
def runFtsQuery (engine : List Char → Except Unit (NoteRow → Bool)) (db : IndexDB)
    (fq : List Char) (noteType : Option String) (excludeCls : List String) :
    Except Unit (List NoteRow) :=
  match engine fq with
  | Except.error e => Except.error e
  | Except.ok mfn =>
      Except.ok (db.notes.filter (fun r =>
        db.fts.any (fun f => f.path == r.path && mfn f) &&
        (match noteType with
         | some t => r.noteType == some t
         | none => true) &&
        ¬ (r.classification.getD "personal" ∈ excludeCls)))

/-- fts5_search of search.py: sanitise the query, return no results for an
empty sanitised query, and on an FTS5 syntax error retry once with the
simplified query, swallowing a second error.  The sqlite3.OperationalError
of the source is the Except.error of the engine oracle; the try/except
blocks are the two matches below. -/
def fts5_search (engine : List Char → Except Unit (NoteRow → Bool)) (db : IndexDB)
    (query : List Char) (noteType : Option String) (excludeCls : List String) :
    List NoteRow :=
  let fq := sanitise_fts_query query
  if fq = [] then []
  else
    match runFtsQuery engine db fq noteType excludeCls with
    | Except.ok rows => rows
    | Except.error _ =>
        let simple := simplifyQuery query
        if simple ≠ [] then
          match runFtsQuery engine db simple noteType excludeCls with
          | Except.ok rows => rows
          | Except.error _ => []
        else []

/-! ## search.py: cosine similarity and vector search -/

/-- The dot product of cosine_similarity: sum over zip(a, b). -/
def dotProd (a b : List ℚ) : ℚ := (List.zipWith (fun x y => x * y) a b).sum

/-- The sum of squares under one of the norms of cosine_similarity;
the norm itself is Real.sqrt of this value, and the norm == 0 test of the
source is equivalent to sumSq == 0 because sumSq is nonnegative. -/
def sumSq (a : List ℚ) : ℚ := (a.map (fun x => x * x)).sum

/-- cosine_similarity of search.py: 0 for mismatched lengths or an empty
first vector, 0 when either norm is zero, else dot/(norm_a * norm_b). -/
noncomputable def cosine_similarity (a b : List ℚ) : ℝ :=
  if a.length ≠ b.length ∨ a = [] then 0
  else
    if Real.sqrt ((sumSq a : ℚ) : ℝ) = 0 ∨ Real.sqrt ((sumSq b : ℚ) : ℝ) = 0 then 0
    else ((dotProd a b : ℚ) : ℝ) /
      (Real.sqrt ((sumSq a : ℚ) : ℝ) * Real.sqrt ((sumSq b : ℚ) : ℝ))

/-- One entry of the embeddings.json store. -/
structure EmbEntry where
  title : String
  noteType : Option String
  mtime : Nat
  vector : List ℚ
deriving DecidableEq, Repr

/-- An embeddings store: path-keyed (JSON object), modelled as an
association list in insertion order with distinct keys. -/
abbrev EmbStore := List (String × EmbEntry)

/-- Descending order on similarity-scored results (sort reverse=True). -/
def byRealScoreDesc (x y : String × ℝ) : Prop := y.2 ≤ x.2

noncomputable instance : DecidableRel byRealScoreDesc := fun _ _ => Classical.dec _

/-- vector_search of search.py: no results when the query embedding is not
available; otherwise score every stored entry with a nonempty vector by
cosine similarity against the query embedding, sort descending and truncate.
The query embedding computed by sentence-transformers is an input. -/
noncomputable def vector_search (store : EmbStore) (qv : Option (List ℚ)) (limit : Nat) :
    List (String × ℝ) :=
  match qv with
  | none => []
  | some qe =>
      let scored := (store.filter (fun e => e.2.vector ≠ [])).map
        (fun e => (e.1, cosine_similarity qe e.2.vector))
      (List.insertionSort byRealScoreDesc scored).take limit

/-! ## search.py: reciprocal rank fusion -/

/-- The RRF constant k = 60 of hybrid_search. -/
def rrfK : ℚ := 60

/-- One reciprocal-rank term: 1 / (k + rank + 1) for a 0-based rank. -/
def rrf (rank : Nat) : ℚ := 1 / (rrfK + rank + 1)

/-- The rank a path ends up with in the score dict of hybrid_search: each
occurrence overwrites the stored term, so the last occurrence wins.  On a
duplicate-free list this is the unique 0-based rank. -/
def lastRank : List String → String → Option Nat
  | [], _ => none
  | a :: l, p =>
      match lastRank l p with
      | some r => some (r + 1)
      | none => if a = p then some 0 else none

/-- The RRF contribution of one source list: 0 when the path is absent. -/
def rrfOf (l : List String) (p : String) : ℚ :=
  match lastRank l p with
  | some r => rrf r
  | none => 0

/-- graph_degrees.get(path, 0): the normalised centrality of a path, 0 when
absent from the degree map. -/
def degOf (deg : List (String × ℚ)) (p : String) : ℚ :=
  match deg.find? (fun e => e.1 = p) with
  | some e => e.2
  | none => 0

/-- The weight triple hybrid_search actually uses: renormalised to sum to 1
when graph degrees are present, otherwise the graph weight is zeroed. -/
def fusedWeights (deg : List (String × ℚ)) (fw vw gw : ℚ) : ℚ × ℚ × ℚ :=
  if deg = [] then (fw, vw, 0)
  else
    let total := fw + vw + gw
    (fw / total, vw / total, gw / total)

/-- The fused score of one path, as computed in the final loop of
hybrid_search: weighted RRF terms from the two lists plus the centrality
boost scaled into the RRF range by 1/(k+1). -/
def fusion_score (deg : List (String × ℚ)) (fw vw gw : ℚ)
    (fts vec : List String) (p : String) : ℚ :=
  let w := fusedWeights deg fw vw gw
  w.1 * rrfOf fts p + w.2.1 * rrfOf vec p + w.2.2 * degOf deg p * (1 / (rrfK + 1))

/-- Descending order on fused scores (sort key=fusion_score reverse=True). -/
def byScoreDesc (x y : String × ℚ) : Prop := y.2 ≤ x.2

instance : DecidableRel byScoreDesc := fun x y => inferInstanceAs (Decidable (y.2 ≤ x.2))

instance : IsTotal (String × ℚ) byScoreDesc :=
  ⟨fun x y => le_total y.2 x.2⟩

instance : IsTrans (String × ℚ) byScoreDesc :=
  ⟨fun _ _ _ h1 h2 => le_trans h2 h1⟩

/-- hybrid_search of search.py, on the path lists of the two sources.  The
score dict holds one entry per distinct path, in first-occurrence order
(FTS paths first, then new vector paths); every entry gets the fused score
and the result is sorted by score descending.  A stable insertion sort
stands in for the stable Python sort. -/
def hybrid_search (fts vec : List String) (deg : List (String × ℚ))
    (fw vw gw : ℚ) : List (String × ℚ) :=
  let keys := (fts ++ vec).dedup
  let scored := keys.map (fun p => (p, fusion_score deg fw vw gw fts vec p))
  List.insertionSort byScoreDesc scored

/-- The result-path pipeline of main in search.py: always exclude the
secret classification from FTS results; fuse when both tiers returned
results, otherwise fall back to the nonempty tier.  Returns result paths
(the displayed result identity). -/
noncomputable def searchMain (engine : List Char → Except Unit (NoteRow → Bool))
    (db : IndexDB) (store : EmbStore) (deg : List (String × ℚ))
    (query : List Char) (qv : Option (List ℚ)) (limit : Nat) : List String :=
  let ftsResults := fts5_search engine db query none ["secret"]
  let vecResults := vector_search store qv limit
  if ftsResults ≠ [] ∧ vecResults ≠ [] then
    ((hybrid_search (ftsResults.map (fun r => r.path)) (vecResults.map (fun r => r.1))
        deg (7/10) (3/10) (1/10)).map (fun r => r.1)).take limit
  else if ftsResults ≠ [] then ftsResults.map (fun r => r.path)
  else vecResults.map (fun r => r.1)

/-! ## build-embeddings.py -/

/-- prepare_text of build-embeddings.py: metadata lines followed by the
cleaned, truncated body.  The regex cleanup of the body (blank-line
collapsing, code-block stripping, wiki-link unwrapping) is abstracted into
the bodyClean input; the 3000-character cap is kept. -/
def prepare_text (title : Option String) (noteType : Option String)
    (tags : List String) (bodyClean : String) : String :=
  let parts :=
    (match title with | some t => ["Title: " ++ t] | none => []) ++
    (match noteType with | some t => ["Type: " ++ t] | none => []) ++
    (match tags with | [] => [] | ts => ["Tags: " ++ joinTags ts]) ++
    [(bodyClean.take 3000)]
  String.intercalate "\n" parts

/-- The entry build_embeddings stores for one note it embeds. -/
def embEntryOf (enc : String → List ℚ) (n : Note) : EmbEntry :=
  { title := n.title.getD n.stem
    noteType := n.noteType
    mtime := n.mtime
    vector := enc (prepare_text (some (n.title.getD n.stem)) n.noteType n.tags n.body) }

/-- One iteration of the selection loop of build_embeddings: skip a note
whose stored entry is still fresh, pop the stored entry of a secret note,
and otherwise queue the note for embedding. -/
def embSelect (enc : String → List ℚ) (st : EmbStore × List (String × EmbEntry)) (n : Note) :
    EmbStore × List (String × EmbEntry) :=
  let (ex, toEmbed) := st
  let fresh : Bool :=
    ((ex.find? (fun e => e.1 = n.path)).map (fun e => decide (n.mtime ≤ e.2.mtime))).getD false
  if fresh then (ex, toEmbed)
  else if n.classification.getD "personal" = "secret" then
    (ex.filter (fun e => e.1 ≠ n.path), toEmbed)
  else (ex, toEmbed ++ [(n.path, embEntryOf enc n)])

/-- existing[rel_path] = entry : overwrite in place or append. -/
def storeUpsert (ex : EmbStore) (kv : String × EmbEntry) : EmbStore :=
  if (ex.find? (fun e => e.1 = kv.1)).isSome then
    ex.map (fun e => if e.1 = kv.1 then kv else e)
  else ex ++ [kv]

/-- build_embeddings of build-embeddings.py, starting from the loaded store.
When nothing needs embedding the function returns early WITHOUT saving, so
the store file keeps its loaded contents (any in-memory pops are lost);
otherwise the queued entries are embedded and upserted, entries for deleted
notes are pruned, and the result saved. -/
def build_embeddings (existing : EmbStore) (notes : List Note)
    (enc : String → List ℚ) : EmbStore :=
  let (ex, toEmbed) := notes.foldl (embSelect enc) (existing, [])
  if toEmbed = [] then existing
  else
    let merged := toEmbed.foldl storeUpsert ex
    let current := notes.map (fun n => n.path)
    merged.filter (fun e => e.1 ∈ current)

/-! ## build-graph.py: parsing, link resolution and graph construction -/

/-- The node payload stored in graph.json for one note. -/
structure NodeData where
  title : String
  noteType : Option String
  classification : String
  tags : List String
  out_degree : Nat
  in_degree : Nat
  degree : Nat
deriving DecidableEq, Repr

/-- An untyped edge from an inline wiki-link. -/
structure Edge where
  source : String
  target : String
deriving DecidableEq, Repr

/-- A typed edge from a relationships declaration. -/
structure TypedEdge where
  source : String
  target : String
  rtype : String
deriving DecidableEq, Repr

/-- The graph built by build_graph: nodes in note order (a path-keyed dict),
untyped and typed edge lists. -/
structure Graph where
  nodes : List (String × NodeData)
  edges : List Edge
  typed_edges : List TypedEdge
deriving DecidableEq, Repr

/-- Python str.strip(): drop leading and trailing whitespace.  Defined by
structural recursion over the character list (String.trim of the core
library is extensionally the same but does not reduce definitionally). -/
def pyStrip (s : String) : String :=
  (((s.data.dropWhile Char.isWhitespace).reverse.dropWhile Char.isWhitespace).reverse).asString

/-- The links set of parse_note: wiki-link texts of the body then of the
frontmatter, stripped, collected into a Python set.  Dedup keeps one copy
per distinct raw text; note the dedup happens BEFORE link resolution. -/
def linkSet (n : Note) : List String :=
  (n.bodyLinks.map pyStrip ++ n.fmLinks.map pyStrip).dedup

/-- paths_by_stem lookup: the dict is filled in note order with the later
note overwriting an earlier one of equal stem, so lookup finds the last. -/
def stemLookup (notes : List Note) (s : String) : Option String :=
  (notes.reverse.find? (fun n => n.stem = s)).map (fun n => n.path)

/-- The conventional type-name strings tried by resolve_link. -/
def typeNamePrefixes : List String :=
  ["Person - ", "System - ", "Concept - ", "Note - ",
   "Decision - ", "Meeting - ", "Task - ", "Project - ",
   "Resource - ", "Interaction - ", "ActionItem - ",
   "Daily - ", "Weblink - "]

/-- resolve_link of build-graph.py: direct stem match first, then each
conventional type-name text prepended, first hit wins; unresolvable targets
yield none. -/
def resolve_link (notes : List Note) (linkText : String) : Option String :=
  match stemLookup notes linkText with
  | some p => some p
  | none => (typeNamePrefixes.filterMap (fun pre => stemLookup notes (pre ++ linkText))).head?

/-- The resolved untyped link list of one note (in links-set order). -/
def resolvedLinks (notes : List Note) (n : Note) : List String :=
  (linkSet n).filterMap (resolve_link notes)

/-- The resolved typed relationships of one note. -/
def resolvedRels (notes : List Note) (n : Note) : List (String × String) :=
  n.relationships.filterMap (fun r => (resolve_link notes r.2).map (fun p => (r.1, p)))

/-- The untyped edges of build_graph: one per resolved link that is not a
self-link. -/
def untypedEdges (notes : List Note) : List Edge :=
  notes.flatMap (fun n =>
    ((resolvedLinks notes n).filter (fun t => t ≠ n.path)).map
      (fun t => { source := n.path, target := t }))

/-- The typed edges of build_graph: one per resolved relationship that is
not a self-link. -/
def typedEdgesOf (notes : List Note) : List TypedEdge :=
  notes.flatMap (fun n =>
    ((resolvedRels notes n).filter (fun r => r.2 ≠ n.path)).map
      (fun r => { source := n.path, target := r.2, rtype := r.1 }))

/-- build_graph of build-graph.py.  out_degree is the number of resolved
untyped links (typed relationships and self-links included in the count);
in_degree counts the untyped and typed edges pointing at the node (the
in-degree loop guards on the target being a node, which the countP keeps
implicit because every resolved target is the path of some note);
degree = in_degree + out_degree in a final pass. -/
def build_graph (notes : List Note) : Graph :=
  let edges := untypedEdges notes
  let tedges := typedEdgesOf notes
  { nodes := notes.map (fun n =>
      let outd := (resolvedLinks notes n).length
      let ind := edges.countP (fun e => e.target = n.path) +
        tedges.countP (fun e => e.target = n.path)
      (n.path, { title := n.title.getD n.stem
                 noteType := n.noteType
                 classification := n.classification.getD "personal"
                 tags := n.tags
                 out_degree := outd
                 in_degree := ind
                 degree := ind + outd }))
    edges := edges
    typed_edges := tedges }

/-- The node keys of a graph. -/
def nodePaths (g : Graph) : List String := g.nodes.map (fun e => e.1)

/-! ## build-graph.py: adjacency, BFS traversal and shortest path -/

/-- build_adjacency of build-graph.py: the undirected neighbour set of a
node, merging untyped and typed edges, keeping only edges with both
endpoints in the node set.  Self-loops never arise because edge creation
excludes them. -/
def edgePairs (g : Graph) : List (String × String) :=
  g.edges.map (fun e => (e.source, e.target)) ++
    g.typed_edges.map (fun e => (e.source, e.target))

def validPairs (g : Graph) : List (String × String) :=
  (edgePairs g).filter (fun st => st.1 ∈ nodePaths g ∧ st.2 ∈ nodePaths g)

def adjSet (g : Graph) (p : String) : Finset String :=
  (((validPairs g).filterMap (fun st => if st.1 = p then some st.2 else none)) ++
   ((validPairs g).filterMap (fun st => if st.2 = p then some st.1 else none))).toFinset

/-- One round of breadth-first expansion: the visited set plus every
neighbour of a visited node. -/
def bfsStep (g : Graph) (x : Finset String) : Finset String :=
  x ∪ x.biUnion (adjSet g)

/-- The set of nodes the BFS of build-graph.py has visited after n rounds
starting from a: exactly the nodes at undirected distance at most n. -/
def reachSet (g : Graph) (a : String) : Nat → Finset String
  | 0 => {a}
  | n + 1 => bfsStep g (reachSet g a n)

/-- Reachability over the undirected adjacency: the specification-side
notion of being in the same connected component. -/
def Reaches (g : Graph) (a b : String) : Prop :=
  Relation.ReflTransGen (fun x y => y ∈ adjSet g x) a b

/-- The observable outcome of shortest_path: a missing endpoint, an
explicit no-path result, or a path with its hop count. -/
inductive SPResult where
  | nodeMissing (p : String)
  | noPath
  | found (len : Nat)
deriving DecidableEq, Repr

/-- shortest_path of build-graph.py, by its distance semantics: the FIFO
BFS dequeues nodes in nondecreasing distance order and stops at the first
dequeue of the end node, so it finds the least d with the end node at
distance d, and reports no path when the queue drains without reaching it
(the visited set then being the whole component, reached within as many
rounds as there are nodes).  The path node list is determined by the
predecessor map and has length len + 1; the claims only inspect len. -/
def shortest_path (g : Graph) (a b : String) : SPResult :=
  if a ∉ nodePaths g then SPResult.nodeMissing a
  else if b ∉ nodePaths g then SPResult.nodeMissing b
  else
    match (List.range ((nodePaths g).length + 1)).find?
        (fun d => b ∈ reachSet g a d) with
    | some d => SPResult.found d
    | none => SPResult.noPath

/-- The nodes first reached in round d (the BFS layer at distance d). -/
def newLayer (g : Graph) (s : String) : Nat → Finset String
  | 0 => {s}
  | d + 1 => reachSet g s (d + 1) \ reachSet g s d

/-- total_reachable of bfs_traverse: visited-set size minus the start. -/
def traverseCount (g : Graph) (s : String) (depth : Nat) : Nat :=
  (reachSet g s depth).card - 1

/-- The layers dict of bfs_traverse: one entry per distance with a
nonempty layer, keyed by distance.  Queue order inside one layer is not
modelled (a layer is the set of nodes at that distance). -/
def traverseLayers (g : Graph) (s : String) (depth : Nat) : List (Nat × Finset String) :=
  (List.range (depth + 1)).filterMap (fun d =>
    if newLayer g s d = ∅ then none else some (d, newLayer g s d))

/-- bfs_traverse of build-graph.py: an error result for a missing start
node, otherwise the layers up to the requested depth and the reachable
count. -/
def bfs_traverse (g : Graph) (s : String) (depth : Nat) :
    Option (List (Nat × Finset String) × Nat) :=
  if s ∈ nodePaths g then some (traverseLayers g s depth, traverseCount g s depth)
  else none

/-! ## Helper lemmas -/

theorem sumSq_nonneg (a : List ℚ) : 0 ≤ sumSq a := by
  apply List.sum_nonneg
  intro x hx
  rcases List.mem_map.mp hx with ⟨y, _, rfl⟩
  exact mul_self_nonneg y

theorem sqrt_sumSq_eq_zero_iff (a : List ℚ) :
    Real.sqrt ((sumSq a : ℚ) : ℝ) = 0 ↔ sumSq a = 0 := by
  rw [Real.sqrt_eq_zero']
  constructor
  · intro h
    have h0 : ((0 : ℚ) : ℝ) ≤ ((sumSq a : ℚ) : ℝ) := by
      exact_mod_cast sumSq_nonneg a
    have : ((sumSq a : ℚ) : ℝ) = 0 := le_antisymm h (by exact_mod_cast sumSq_nonneg a)
    exact_mod_cast this
  · intro h
    rw [h]
    simp

/-- C8: for every pair of vectors a and b, cosine_similarity returns 0 (a
value, not an error) whenever the lengths differ or either vector has zero
magnitude (equivalently, zero sum of squares); otherwise it returns
dot(a,b) / (norm(a) * norm(b)). -/
theorem claim_C8 (a b : List ℚ) :
    ((a.length ≠ b.length ∨ sumSq a = 0 ∨ sumSq b = 0) → cosine_similarity a b = 0) ∧
    (a.length = b.length → sumSq a ≠ 0 → sumSq b ≠ 0 →
      cosine_similarity a b =
        ((dotProd a b : ℚ) : ℝ) /
          (Real.sqrt ((sumSq a : ℚ) : ℝ) * Real.sqrt ((sumSq b : ℚ) : ℝ))) := by
  constructor
  · intro h
    by_cases hl : a.length ≠ b.length
    · simp only [cosine_similarity]
      rw [if_pos (Or.inl hl)]
    · by_cases ha : a = []
      · simp only [cosine_similarity]
        rw [if_pos (Or.inr ha)]
      · have hz : sumSq a = 0 ∨ sumSq b = 0 := by
          rcases h with h | h | h
          · exact absurd h hl
          · exact Or.inl h
          · exact Or.inr h
        simp only [cosine_similarity]
        rw [if_neg (by push_neg; exact ⟨not_not.mp hl, ha⟩)]
        rcases hz with hz | hz
        · rw [if_pos (Or.inl ((sqrt_sumSq_eq_zero_iff a).mpr hz))]
        · rw [if_pos (Or.inr ((sqrt_sumSq_eq_zero_iff b).mpr hz))]
  · intro hl ha hb
    have hane : a ≠ [] := by
      intro h
      apply ha
      rw [h]
      rfl
    simp only [cosine_similarity]
    rw [if_neg (by push_neg; exact ⟨hl, hane⟩)]
    rw [if_neg (by
      push_neg
      constructor
      · exact fun h => ha ((sqrt_sumSq_eq_zero_iff a).mp h)
      · exact fun h => hb ((sqrt_sumSq_eq_zero_iff b).mp h))]

/-- Witness for C8: a concrete mismatched-length pair yields 0, and a
concrete honest pair yields the quotient formula. -/
theorem claim_C8_witness :
    cosine_similarity [1] [1, 2] = 0 ∧
    cosine_similarity [3] [4] =
      ((dotProd [3] [4] : ℚ) : ℝ) /
        (Real.sqrt ((sumSq [3] : ℚ) : ℝ) * Real.sqrt ((sumSq [4] : ℚ) : ℝ)) := by
  constructor
  · exact (claim_C8 [1] [1, 2]).1 (Or.inl (by decide))
  · exact (claim_C8 [3] [4]).2 rfl (by norm_num [sumSq]) (by norm_num [sumSq])

theorem upsertNote_mem_of_lookup_none (db : IndexDB) (r : NoteRow)
    (h : dbLookup db r.path = none) : r ∈ (upsertNote db r).notes := by
  unfold upsertNote
  rw [show (db.notes.find? (fun q => q.path = r.path)) = none from h]
  simp

theorem storeUpsert_key_mem (ex : EmbStore) (kv : String × EmbEntry) :
    kv.1 ∈ (storeUpsert ex kv).map (fun e => e.1) := by
  unfold storeUpsert
  by_cases h : (ex.find? (fun e => e.1 = kv.1)).isSome
  · rw [if_pos h]
    rcases Option.isSome_iff_exists.mp h with ⟨e, he⟩
    have hmem : e ∈ ex := List.mem_of_find?_eq_some he
    have hkey : e.1 = kv.1 := by
      have := List.find?_some he
      simpa using this
    have hkv : kv ∈ ex.map (fun e => if e.1 = kv.1 then kv else e) :=
      List.mem_map.mpr ⟨e, hmem, by rw [if_pos hkey]⟩
    exact List.mem_map.mpr ⟨kv, hkv, rfl⟩
  · rw [if_neg h]
    exact List.mem_map.mpr ⟨kv, List.mem_append_right _ (List.mem_singleton.mpr rfl), rfl⟩

theorem storeUpsert_key_mono (ex : EmbStore) (kv : String × EmbEntry) (p : String)
    (hp : p ∈ ex.map (fun e => e.1)) : p ∈ (storeUpsert ex kv).map (fun e => e.1) := by
  unfold storeUpsert
  rcases List.mem_map.mp hp with ⟨e, he, rfl⟩
  by_cases h : (ex.find? (fun q => q.1 = kv.1)).isSome
  · rw [if_pos h]
    by_cases hk : e.1 = kv.1
    · exact List.mem_map.mpr ⟨kv, List.mem_map.mpr ⟨e, he, by rw [if_pos hk]⟩, hk.symm⟩
    · exact List.mem_map.mpr ⟨e, List.mem_map.mpr ⟨e, he, by rw [if_neg hk]⟩, rfl⟩
  · rw [if_neg h]
    exact List.mem_map.mpr ⟨e, List.mem_append_left _ he, rfl⟩

theorem foldl_storeUpsert_key_mono (l : List (String × EmbEntry)) (ex : EmbStore) (p : String)
    (hp : p ∈ ex.map (fun e => e.1)) : p ∈ (l.foldl storeUpsert ex).map (fun e => e.1) := by
  induction l generalizing ex with
  | nil => exact hp
  | cons kv t ih => exact ih _ (storeUpsert_key_mono ex kv p hp)

theorem foldl_storeUpsert_key_of_mem (l : List (String × EmbEntry)) (ex : EmbStore)
    (kv : String × EmbEntry) (h : kv ∈ l) :
    kv.1 ∈ (l.foldl storeUpsert ex).map (fun e => e.1) := by
  induction l generalizing ex with
  | nil => cases h
  | cons a t ih =>
    rcases List.mem_cons.mp h with rfl | h2
    · exact foldl_storeUpsert_key_mono t _ _ (storeUpsert_key_mem ex kv)
    · exact ih _ h2

theorem embSelect_nil_shape (enc : String → List ℚ) (acc : List (String × EmbEntry)) (n : Note) :
    embSelect enc ([], acc) n =
      if n.classification.getD "personal" = "secret" then ([], acc)
      else ([], acc ++ [(n.path, embEntryOf enc n)]) := by
  unfold embSelect
  by_cases hs : n.classification.getD "personal" = "secret" <;> simp [hs]

theorem foldl_embSelect_nil_fst (enc : String → List ℚ) (ns : List Note)
    (acc : List (String × EmbEntry)) :
    (ns.foldl (embSelect enc) ([], acc)).1 = [] := by
  induction ns generalizing acc with
  | nil => rfl
  | cons n t ih =>
    show (t.foldl (embSelect enc) (embSelect enc ([], acc) n)).1 = []
    rw [embSelect_nil_shape]
    by_cases hs : n.classification.getD "personal" = "secret"
    · rw [if_pos hs]; exact ih acc
    · rw [if_neg hs]; exact ih _

theorem foldl_embSelect_nil_acc_mono (enc : String → List ℚ) (ns : List Note)
    (acc : List (String × EmbEntry)) (x : String × EmbEntry) (hx : x ∈ acc) :
    x ∈ (ns.foldl (embSelect enc) ([], acc)).2 := by
  induction ns generalizing acc with
  | nil => exact hx
  | cons n t ih =>
    show x ∈ (t.foldl (embSelect enc) (embSelect enc ([], acc) n)).2
    rw [embSelect_nil_shape]
    by_cases hs : n.classification.getD "personal" = "secret"
    · rw [if_pos hs]; exact ih acc hx
    · rw [if_neg hs]; exact ih _ (List.mem_append_left _ hx)

theorem foldl_embSelect_nil_mem (enc : String → List ℚ) (ns : List Note)
    (acc : List (String × EmbEntry)) (n : Note) (hn : n ∈ ns)
    (hns : n.classification.getD "personal" ≠ "secret") :
    (n.path, embEntryOf enc n) ∈ (ns.foldl (embSelect enc) ([], acc)).2 := by
  induction ns generalizing acc with
  | nil => cases hn
  | cons m t ih =>
    show (n.path, embEntryOf enc n) ∈ (t.foldl (embSelect enc) (embSelect enc ([], acc) m)).2
    rw [embSelect_nil_shape]
    rcases List.mem_cons.mp hn with rfl | h2
    · rw [if_neg hns]
      exact foldl_embSelect_nil_acc_mono enc t _ _
        (List.mem_append_right _ (List.mem_singleton.mpr rfl))
    · by_cases hs : m.classification.getD "personal" = "secret"
      · rw [if_pos hs]; exact ih acc h2
      · rw [if_neg hs]; exact ih _ h2

/-- C10: a document with no classification value is treated as personal by
every component: build_graph stores classification "personal" on its node;
index_note indexes it (no secret skip) and the stored row has
classification "personal"; build_embeddings embeds it (the path is present
in the resulting store, not pruned); and the search-side exclusion filter
COALESCEs a NULL row classification to "personal" before comparing with
the exclusion list. -/
theorem claim_C10 (notes : List Note) (n : Note) (hn : n ∈ notes)
    (hc : n.classification = none) (db : IndexDB) (hdb : dbLookup db n.path = none)
    (enc : String → List ℚ) (r : NoteRow) (hr : r.classification = none)
    (db2 : IndexDB) (mfn : NoteRow → Bool) (fq : List Char) (excl : List String) :
    (∃ nd, (n.path, nd) ∈ (build_graph notes).nodes ∧ nd.classification = "personal") ∧
    ((index_note db n).2 = true ∧
      rowOfNote n ∈ (index_note db n).1.notes ∧
      (rowOfNote n).classification = some "personal") ∧
    (n.path ∈ (build_embeddings [] notes enc).map (fun e => e.1)) ∧
    (∀ rows, runFtsQuery (fun _ => Except.ok mfn) db2 fq none excl = Except.ok rows →
      (r ∈ rows ↔ r ∈ db2.notes ∧ db2.fts.any (fun f => f.path == r.path && mfn f) ∧
        "personal" ∉ excl)) := by
  have hpers : n.classification.getD "personal" = "personal" := by rw [hc]; rfl
  have hnsec : n.classification.getD "personal" ≠ "secret" := by rw [hpers]; decide
  refine ⟨?_, ⟨?_, ?_, ?_⟩, ?_, ?_⟩
  · refine ⟨_, List.mem_map.mpr ⟨n, hn, rfl⟩, ?_⟩
    simpa using hpers
  · unfold index_note
    rw [hdb, if_neg hnsec]
  · unfold index_note
    rw [hdb, if_neg hnsec]
    exact upsertNote_mem_of_lookup_none db (rowOfNote n) hdb
  · simp only [rowOfNote, hc]
    rfl
  · unfold build_embeddings
    have hfst := foldl_embSelect_nil_fst enc notes []
    have hmem := foldl_embSelect_nil_mem enc notes [] n hn hnsec
    have hne : (notes.foldl (embSelect enc) ([], [])).2 ≠ [] :=
      List.ne_nil_of_mem hmem
    simp only [hne, if_neg hne]
    have hkey : n.path ∈
        (((notes.foldl (embSelect enc) ([], [])).2).foldl storeUpsert
          (notes.foldl (embSelect enc) ([], [])).1).map (fun e => e.1) :=
      foldl_storeUpsert_key_of_mem _ _ _ hmem
    rcases List.mem_map.mp hkey with ⟨e, he, hep⟩
    refine List.mem_map.mpr ⟨e, List.mem_filter.mpr ⟨he, ?_⟩, hep⟩
    simp only [hep]
    exact decide_eq_true (List.mem_map.mpr ⟨n, hn, rfl⟩)
  · intro rows hrows
    unfold runFtsQuery at hrows
    simp only [Except.ok.injEq] at hrows
    subst hrows
    rw [List.mem_filter]
    have hcoal : r.classification.getD "personal" = "personal" := by rw [hr]; rfl
    constructor
    · rintro ⟨h1, h2⟩
      simp only [Bool.and_eq_true, decide_eq_true_eq] at h2
      exact ⟨h1, by simpa using h2.1.1, by
        have := h2.2
        rw [hcoal] at this
        simpa using this⟩
    · rintro ⟨h1, h2, h3⟩
      refine ⟨h1, ?_⟩
      simp only [Bool.and_eq_true, decide_eq_true_eq]
      exact ⟨⟨by simpa using h2, trivial⟩, by rw [hcoal]; simpa using h3⟩

/-- A concrete note with no classification field, used by witnesses. -/
def wNote : Note :=
  { path := "W.md", stem := "W", title := none, noteType := none, classification := none,
    tags := [], created := none, status := none, verified := none, encrypted := false,
    body := "w", bodyLinks := [], fmLinks := [], relationships := [], mtime := 1 }

/-- A concrete row with a NULL classification column, used by witnesses. -/
def wRow : NoteRow :=
  { path := "W.md", title := "W", noteType := none, created := none, tags := "",
    classification := none, encrypted := false, status := none, verified := none,
    content := "w", mtime := 1 }

/-- Witness for C10: the defaulting theorem applied to a concrete note with
an absent classification, projected to its graph conjunct. -/
theorem claim_C10_witness :
    ∃ nd, ("W.md", nd) ∈ (build_graph [wNote]).nodes ∧ nd.classification = "personal" :=
  (claim_C10 [wNote] wNote (List.mem_singleton.mpr rfl) rfl emptyIndexDB rfl
    (fun _ => []) wRow rfl emptyIndexDB (fun _ => true) [] ["secret"]).1

theorem splitWs_chars_subset (l : List Char) (w : List Char) (hw : w ∈ splitWs l)
    (c : Char) (hc : c ∈ w) : c ∈ l := by
  have main : ∀ (l : List Char) (w : List Char),
      w ∈ l.foldr
        (fun c acc =>
          if c.isWhitespace then [] :: acc
          else
            match acc with
            | [] => [[c]]
            | v :: ws => (c :: v) :: ws)
        [] → ∀ c ∈ w, c ∈ l := by
    intro l
    induction l with
    | nil => intro w hw; cases hw
    | cons x xs ih =>
      intro w hw c hcw
      simp only [List.foldr_cons] at hw
      by_cases hx : x.isWhitespace
      · rw [if_pos hx] at hw
        rcases List.mem_cons.mp hw with rfl | hw2
        · cases hcw
        · exact List.mem_cons_of_mem _ (ih w hw2 c hcw)
      · rw [if_neg hx] at hw
        rcases hF : xs.foldr
            (fun c acc =>
              if c.isWhitespace then [] :: acc
              else
                match acc with
                | [] => [[c]]
                | v :: ws => (c :: v) :: ws)
            [] with _ | ⟨v, ws⟩
        · rw [hF] at hw
          simp only [List.mem_singleton] at hw
          subst hw
          simp only [List.mem_singleton] at hcw
          subst hcw
          exact List.mem_cons_self _ _
        · rw [hF] at hw
          rcases List.mem_cons.mp hw with rfl | hw2
          · rcases List.mem_cons.mp hcw with rfl | hcv
            · exact List.mem_cons_self c xs
            · refine List.mem_cons_of_mem _ (ih v ?_ c hcv)
              rw [hF]
              exact List.mem_cons_self v ws
          · refine List.mem_cons_of_mem _ (ih w ?_ c hcw)
            rw [hF]
            exact List.mem_cons_of_mem _ hw2
  unfold splitWs at hw
  exact main l w (List.mem_filter.mp hw).1 c hc

theorem joinSpace_chars (ts : List (List Char)) (c : Char) (hc : c ∈ joinSpace ts) :
    c = ' ' ∨ ∃ t ∈ ts, c ∈ t := by
  induction ts with
  | nil => cases hc
  | cons t rest ih =>
    rcases rest with _ | ⟨u, more⟩
    · exact Or.inr ⟨t, List.mem_singleton.mpr rfl, hc⟩
    · rw [show joinSpace (t :: u :: more) = t ++ ' ' :: joinSpace (u :: more) from rfl] at hc
      rcases List.mem_append.mp hc with h | h
      · exact Or.inr ⟨t, List.mem_cons_self _ _, h⟩
      · rcases List.mem_cons.mp h with rfl | h2
        · exact Or.inl rfl
        · rcases ih h2 with h3 | ⟨v, hv, hcv⟩
          · exact Or.inl h3
          · exact Or.inr ⟨v, List.mem_cons_of_mem _ hv, hcv⟩

theorem sanitise_no_opChars (q : List Char)
    (hq : ¬ (q.head? = some '"' ∧ q.getLast? = some '"')) :
    ∀ c ∈ sanitise_fts_query q, c ∉ opChars := by
  intro c hc
  unfold sanitise_fts_query at hc
  rw [if_neg hq] at hc
  have cleanedMem : ∀ d : Char, d ∈ q.filter (fun c => ¬ (c ∈ opChars)) → d ∉ opChars := by
    intro d hd
    have := (List.mem_filter.mp hd).2
    simpa using this
  rcases hT : splitWs (q.filter (fun c => ¬ (c ∈ opChars))) with _ | ⟨t, rest⟩
  · rw [hT] at hc
    cases hc
  · rcases rest with _ | ⟨u, more⟩
    · rw [hT] at hc
      exact cleanedMem c (splitWs_chars_subset _ t (by rw [hT]; exact List.mem_singleton.mpr rfl) c hc)
    · rw [hT] at hc
      rcases joinSpace_chars _ c hc with rfl | ⟨v, hv, hcv⟩
      · decide
      · have hvT : v ∈ splitWs (q.filter (fun c => ¬ (c ∈ opChars))) := by
          rw [hT]
          exact (List.mem_filter.mp hv).1
        exact cleanedMem c (splitWs_chars_subset _ v hvT c hcv)

/-- C9: lexical search never propagates a query-syntax error.  The first
MATCH is issued with the sanitised query, whose characters (for a
non-phrase query) contain none of the FTS5 operator characters; an empty
sanitised query short-circuits to no results; on a syntax error the search
is retried once with the query stripped to word characters and whitespace,
and a second syntax error yields the empty result list instead of an
exception. -/
theorem claim_C9 (engine : List Char → Except Unit (NoteRow → Bool)) (db : IndexDB)
    (q : List Char) (nt : Option String) (excl : List String) :
    (¬ (q.head? = some '"' ∧ q.getLast? = some '"') →
      ∀ c ∈ sanitise_fts_query q, c ∉ opChars) ∧
    (∀ rows, sanitise_fts_query q ≠ [] →
      runFtsQuery engine db (sanitise_fts_query q) nt excl = Except.ok rows →
      fts5_search engine db q nt excl = rows) ∧
    (∀ rows, sanitise_fts_query q ≠ [] →
      runFtsQuery engine db (sanitise_fts_query q) nt excl = Except.error () →
      simplifyQuery q ≠ [] →
      runFtsQuery engine db (simplifyQuery q) nt excl = Except.ok rows →
      fts5_search engine db q nt excl = rows) ∧
    (runFtsQuery engine db (sanitise_fts_query q) nt excl = Except.error () →
      runFtsQuery engine db (simplifyQuery q) nt excl = Except.error () →
      fts5_search engine db q nt excl = []) ∧
    (sanitise_fts_query q = [] → fts5_search engine db q nt excl = []) := by
  refine ⟨sanitise_no_opChars q, ?_, ?_, ?_, ?_⟩
  · intro rows hne hok
    unfold fts5_search
    rw [if_neg hne, hok]
  · intro rows hne herr hsne hok
    unfold fts5_search
    rw [if_neg hne, herr]
    rw [if_pos hsne, hok]
  · intro herr herr2
    unfold fts5_search
    by_cases hne : sanitise_fts_query q = []
    · rw [if_pos hne]
    · rw [if_neg hne, herr]
      by_cases hs : simplifyQuery q = []
      · rw [if_neg (by rw [hs]; simp)]
      · rw [if_pos hs, herr2]
  · intro hnil
    unfold fts5_search
    rw [if_pos hnil]

/-- Witness for C9: a query with a parenthesis, an engine that always
reports a syntax error; the search returns the empty list. -/
theorem claim_C9_witness :
    fts5_search (fun _ => Except.error ()) emptyIndexDB ['a', '(', 'b'] none ["secret"] = [] :=
  (claim_C9 (fun _ => Except.error ()) emptyIndexDB ['a', '(', 'b'] none ["secret"]).2.2.2.1
    rfl rfl

theorem countP_flatMap {α β : Type} (p : β → Bool) (f : α → List β) (l : List α) :
    (l.flatMap f).countP p = (l.map (fun x => (f x).countP p)).sum := by
  induction l with
  | nil => rfl
  | cons a t ih =>
    rw [List.flatMap_cons, List.countP_append, ih]
    rfl

theorem countP_eq_filterMap {α : Type} [DecidableEq α] {β : Type}
    (f : β → Option α) (l : List β) (t : α) :
    (l.filterMap f).countP (fun x => x = t) = l.countP (fun s => f s = some t) := by
  induction l with
  | nil => rfl
  | cons a rest ih =>
    rcases hf : f a with _ | b
    · rw [List.filterMap_cons_none hf, ih, List.countP_cons_of_neg]
      simp [hf]
    · rw [List.filterMap_cons_some hf]
      by_cases hb : b = t
      · subst hb
        rw [List.countP_cons_of_pos _ _ (by simp),
          List.countP_cons_of_pos _ _ (by simp [hf]), ih]
      · rw [List.countP_cons_of_neg _ _ (by simpa using hb),
          List.countP_cons_of_neg _ _ (by simp [hf, hb]), ih]

theorem sum_map_single_path (g : Note → ℕ) (n : Note) (ns : List Note)
    (hn : n ∈ ns) (hN : (ns.map (fun m => m.path)).Nodup)
    (hz : ∀ m ∈ ns, m.path ≠ n.path → g m = 0) :
    (ns.map g).sum = g n := by
  induction ns with
  | nil => cases hn
  | cons m rest ih =>
    rw [List.map_cons, List.sum_cons]
    rw [List.map_cons] at hN
    have hhead := (List.nodup_cons.mp hN).1
    have htail := (List.nodup_cons.mp hN).2
    rcases List.mem_cons.mp hn with rfl | hn2
    · have hrest : (rest.map g).sum = 0 := by
        apply List.sum_eq_zero
        intro x hx
        rcases List.mem_map.mp hx with ⟨m2, hm2, rfl⟩
        apply hz m2 (List.mem_cons_of_mem _ hm2)
        intro hEq
        exact hhead (List.mem_map.mpr ⟨m2, hm2, hEq⟩)
      rw [hrest, Nat.add_zero]
    · have hmp : m.path ≠ n.path := by
        intro hEq
        exact hhead (List.mem_map.mpr ⟨n, hn2, hEq.symm⟩)
      rw [hz m (List.mem_cons_self _ _) hmp, ih hn2 htail
        (fun m2 hm2 => hz m2 (List.mem_cons_of_mem _ hm2)), zero_add]

theorem untypedEdges_countP_other (notes : List Note) (m : Note) (p t : String)
    (hmp : m.path ≠ p) :
    (((resolvedLinks notes m).filter (fun x => x ≠ m.path)).map
      (fun x => ({ source := m.path, target := x } : Edge))).countP
        (fun e => e.source = p ∧ e.target = t) = 0 := by
  rw [List.countP_eq_zero]
  intro e he
  rcases List.mem_map.mp he with ⟨x, _, rfl⟩
  simp only [decide_eq_true_eq, Bool.and_eq_true]
  rintro ⟨h1, _⟩
  exact hmp (by simpa using h1)

/-- Counterexample input for C5: the note A.md contains the two distinct
inline references Alice and Person - Alice, both of which resolve to
Person - Alice.md (the first via the Person type-name retry). -/
def cexNoteA : Note :=
  { path := "A.md", stem := "A", title := none, noteType := none, classification := none,
    tags := [], created := none, status := none, verified := none, encrypted := false,
    body := "", bodyLinks := ["Alice", "Person - Alice"], fmLinks := [],
    relationships := [], mtime := 1 }

def cexNoteP : Note :=
  { path := "Person - Alice.md", stem := "Person - Alice", title := none, noteType := none,
    classification := none, tags := [], created := none, status := none, verified := none,
    encrypted := false, body := "", bodyLinks := [], fmLinks := [],
    relationships := [], mtime := 1 }

/-- Counterexample to C5 as stated: two untyped inline references of one
document that resolve to the same target produce TWO untyped edges, because
deduplication happens on the raw reference texts before resolution, not on
the resolved targets. -/
theorem claim_C5_counterexample :
    ¬ ((build_graph [cexNoteA, cexNoteP]).edges.countP
        (fun e => e.source = "A.md" ∧ e.target = "Person - Alice.md") ≤ 1) := by
  decide

/-- C5 amended: untyped references are deduplicated per raw reference text
(the links set), not per resolved target: in a corpus with distinct paths,
the number of untyped edges from a document to a target t equals the number
of distinct raw link texts of that document resolving to t. -/
theorem claim_C5_amended (notes : List Note) (hN : (notes.map (fun n => n.path)).Nodup)
    (n : Note) (hn : n ∈ notes) (t : String) (ht : t ≠ n.path) :
    (linkSet n).Nodup ∧
    (build_graph notes).edges.countP (fun e => e.source = n.path ∧ e.target = t) =
      ((linkSet n).filter (fun s => resolve_link notes s = some t)).length := by
  refine ⟨List.nodup_dedup _, ?_⟩
  have hblockn :
      (((resolvedLinks notes n).filter (fun x => x ≠ n.path)).map
        (fun x => ({ source := n.path, target := x } : Edge))).countP
          (fun e => e.source = n.path ∧ e.target = t) =
      ((linkSet n).filter (fun s => resolve_link notes s = some t)).length := by
    rw [List.countP_map]
    have hcomp :
        ((fun e : Edge => decide (e.source = n.path ∧ e.target = t)) ∘
          (fun x => ({ source := n.path, target := x } : Edge))) =
        (fun x : String => decide (x = t)) := by
      funext x
      simp
    rw [hcomp, List.countP_filter]
    have hpred :
        (fun a : String => decide (a = t) && decide (a ≠ n.path)) =
        (fun a : String => decide (a = t)) := by
      funext a
      by_cases hat : a = t
      · subst hat
        simp [ht]
      · simp [hat]
    rw [hpred]
    unfold resolvedLinks
    rw [countP_eq_filterMap, List.countP_eq_length_filter]
  have hsum : (untypedEdges notes).countP (fun e => e.source = n.path ∧ e.target = t) =
      (notes.map (fun m =>
        ((((resolvedLinks notes m).filter (fun x => x ≠ m.path)).map
          (fun x => ({ source := m.path, target := x } : Edge))).countP
            (fun e => e.source = n.path ∧ e.target = t)))).sum := by
    unfold untypedEdges
    rw [countP_flatMap]
  have hsingle : (notes.map (fun m =>
        ((((resolvedLinks notes m).filter (fun x => x ≠ m.path)).map
          (fun x => ({ source := m.path, target := x } : Edge))).countP
            (fun e => e.source = n.path ∧ e.target = t)))).sum =
      (((resolvedLinks notes n).filter (fun x => x ≠ n.path)).map
        (fun x => ({ source := n.path, target := x } : Edge))).countP
          (fun e => e.source = n.path ∧ e.target = t) :=
    sum_map_single_path _ n notes hn hN
      (fun m _ hmp => untypedEdges_countP_other notes m n.path t hmp)
  show (untypedEdges notes).countP (fun e => e.source = n.path ∧ e.target = t) = _
  rw [hsum, hsingle, hblockn]

/-- Witness for the amended C5 at the counterexample corpus: exactly two
distinct raw texts of A.md resolve to Person - Alice.md, and accordingly
two untyped edges are built. -/
theorem claim_C5_witness :
    (linkSet cexNoteA).Nodup ∧
    (build_graph [cexNoteA, cexNoteP]).edges.countP
        (fun e => e.source = "A.md" ∧ e.target = "Person - Alice.md") =
      ((linkSet cexNoteA).filter
        (fun s => resolve_link [cexNoteA, cexNoteP] s = some "Person - Alice.md")).length :=
  claim_C5_amended [cexNoteA, cexNoteP] (by decide) cexNoteA
    (List.mem_cons_self _ _) "Person - Alice.md" (by decide)

/-! ## C3: degree sums -/

/-- The sum of in_degree over all graph nodes. -/
def sumInDegree (g : Graph) : ℕ := (g.nodes.map (fun e => e.2.in_degree)).sum

/-- The sum of out_degree over all graph nodes. -/
def sumOutDegree (g : Graph) : ℕ := (g.nodes.map (fun e => e.2.out_degree)).sum

/-- The number of resolved untyped self-references over the corpus (counted
in out_degree but not materialised as edges). -/
def selfRefCount (notes : List Note) : ℕ :=
  (notes.map (fun n => (resolvedLinks notes n).countP (fun x => x = n.path))).sum

theorem stemLookup_mem (notes : List Note) (s p : String)
    (h : stemLookup notes s = some p) : p ∈ notes.map (fun n => n.path) := by
  unfold stemLookup at h
  rcases hf : notes.reverse.find? (fun n => n.stem = s) with _ | n
  · rw [hf] at h
    cases h
  · rw [hf] at h
    have hmem : n ∈ notes := List.mem_reverse.mp (List.mem_of_find?_eq_some hf)
    have h2 : n.path = p := by simpa using h
    exact List.mem_map.mpr ⟨n, hmem, h2⟩

theorem resolve_link_mem (notes : List Note) (s p : String)
    (h : resolve_link notes s = some p) : p ∈ notes.map (fun n => n.path) := by
  unfold resolve_link at h
  rcases hs : stemLookup notes s with _ | q
  · rw [hs] at h
    have hp : p ∈ typeNamePrefixes.filterMap (fun pre => stemLookup notes (pre ++ s)) :=
      List.mem_of_mem_head? (Option.mem_def.mpr h)
    rcases List.mem_filterMap.mp hp with ⟨pre, _, hpre⟩
    exact stemLookup_mem notes (pre ++ s) p hpre
  · rw [hs] at h
    cases h
    exact stemLookup_mem notes s p hs

theorem sum_ite_eq_one (ps : List String) (hps : ps.Nodup) (x : String) (hx : x ∈ ps) :
    (ps.map (fun p => if x = p then 1 else 0)).sum = 1 := by
  induction ps with
  | nil => cases hx
  | cons a t ih =>
    rw [List.map_cons, List.sum_cons]
    have hhead := (List.nodup_cons.mp hps).1
    have htail := (List.nodup_cons.mp hps).2
    rcases List.mem_cons.mp hx with rfl | hxt
    · rw [if_pos rfl]
      have : (t.map (fun p => if x = p then 1 else 0)).sum = 0 := by
        apply List.sum_eq_zero
        intro y hy
        rcases List.mem_map.mp hy with ⟨p, hp, rfl⟩
        rw [if_neg]
        intro hEq
        exact hhead (hEq ▸ hp)
      rw [this]
    · have hxa : x ≠ a := by
        intro hEq
        exact hhead (hEq ▸ hxt)
      rw [if_neg hxa, ih htail hxt, Nat.zero_add]

theorem sum_countP_eq_length {α : Type} (ps : List String) (hps : ps.Nodup)
    (es : List α) (f : α → String) (h : ∀ e ∈ es, f e ∈ ps) :
    (ps.map (fun p => es.countP (fun e => f e = p))).sum = es.length := by
  induction es with
  | nil => simp
  | cons e rest ih =>
    have hrest : ∀ x ∈ rest, f x ∈ ps := fun x hx => h x (List.mem_cons_of_mem _ hx)
    have hsplit : (fun p => (e :: rest).countP (fun x => f x = p)) =
        (fun p => rest.countP (fun x => f x = p) + (if f e = p then 1 else 0)) := by
      funext p
      by_cases hfe : f e = p
      · rw [List.countP_cons_of_pos _ _ (by simpa using hfe), if_pos hfe]
      · rw [List.countP_cons_of_neg _ _ (by simpa using hfe), if_neg hfe, Nat.add_zero]
    rw [hsplit, List.sum_map_add, ih hrest, sum_ite_eq_one ps hps (f e) (h e (List.mem_cons_self _ _))]
    rfl

theorem untypedEdges_target_mem (notes : List Note) (e : Edge) (he : e ∈ untypedEdges notes) :
    e.target ∈ notes.map (fun n => n.path) := by
  rcases List.mem_flatMap.mp he with ⟨n, _, hblock⟩
  rcases List.mem_map.mp hblock with ⟨x, hx, rfl⟩
  have hxr : x ∈ resolvedLinks notes n := (List.mem_filter.mp hx).1
  rcases List.mem_filterMap.mp hxr with ⟨s, _, hs⟩
  exact resolve_link_mem notes s x hs

theorem typedEdges_target_mem (notes : List Note) (e : TypedEdge) (he : e ∈ typedEdgesOf notes) :
    e.target ∈ notes.map (fun n => n.path) := by
  rcases List.mem_flatMap.mp he with ⟨n, _, hblock⟩
  rcases List.mem_map.mp hblock with ⟨r, hr, rfl⟩
  have hrr : r ∈ resolvedRels notes n := (List.mem_filter.mp hr).1
  rcases List.mem_filterMap.mp hrr with ⟨rel, _, hrel⟩
  rcases Option.map_eq_some'.mp hrel with ⟨p, hp, hpr⟩
  have : r.2 = p := by rw [← hpr]
  rw [this]
  exact resolve_link_mem notes rel.2 p hp

/-- The nodes list of build_graph, written out. -/
theorem build_graph_nodes_eq (notes : List Note) :
    (build_graph notes).nodes = notes.map (fun n =>
      (n.path, ({ title := n.title.getD n.stem
                  noteType := n.noteType
                  classification := n.classification.getD "personal"
                  tags := n.tags
                  out_degree := (resolvedLinks notes n).length
                  in_degree := (untypedEdges notes).countP (fun e => e.target = n.path) +
                    (typedEdgesOf notes).countP (fun e => e.target = n.path)
                  degree := ((untypedEdges notes).countP (fun e => e.target = n.path) +
                    (typedEdgesOf notes).countP (fun e => e.target = n.path)) +
                    (resolvedLinks notes n).length } : NodeData))) := rfl

theorem sumInDegree_build (notes : List Note) :
    sumInDegree (build_graph notes) =
      (notes.map (fun n => (untypedEdges notes).countP (fun e => e.target = n.path))).sum +
      (notes.map (fun n => (typedEdgesOf notes).countP (fun e => e.target = n.path))).sum := by
  unfold sumInDegree
  rw [build_graph_nodes_eq, List.map_map, ← List.sum_map_add]
  rfl

theorem sumOutDegree_build (notes : List Note) :
    sumOutDegree (build_graph notes) =
      (notes.map (fun n => (resolvedLinks notes n).length)).sum := by
  unfold sumOutDegree
  rw [build_graph_nodes_eq, List.map_map]
  rfl

theorem untypedEdges_length (notes : List Note) :
    (untypedEdges notes).length =
      (notes.map (fun n => (resolvedLinks notes n).countP (fun x => ¬ (x = n.path)))).sum := by
  unfold untypedEdges
  rw [List.length_flatMap]
  apply congrArg List.sum
  apply List.map_congr_left
  intro n _
  show (((resolvedLinks notes n).filter (fun x => x ≠ n.path)).map
    (fun x => ({ source := n.path, target := x } : Edge))).length = _
  rw [List.length_map, ← List.countP_eq_length_filter]

/-- Counterexample input for C3: A.md declares one typed relationship to
B.md and no untyped links. -/
def c3NoteA : Note :=
  { path := "A.md", stem := "A", title := none, noteType := none, classification := none,
    tags := [], created := none, status := none, verified := none, encrypted := false,
    body := "", bodyLinks := [], fmLinks := [],
    relationships := [("depends-on", "B")], mtime := 1 }

def c3NoteB : Note :=
  { path := "B.md", stem := "B", title := none, noteType := none, classification := none,
    tags := [], created := none, status := none, verified := none, encrypted := false,
    body := "", bodyLinks := [], fmLinks := [], relationships := [], mtime := 1 }

/-- Counterexample to C3 as stated: with one typed edge and no untyped
edges, sum(in_degree) = 1 = total edge count but sum(out_degree) = 0,
because out_degree counts only resolved untyped links and ignores typed
relationships; so the chain sum(in) == sum(out) == edges fails. -/
theorem claim_C3_counterexample :
    ¬ (sumInDegree (build_graph [c3NoteA, c3NoteB]) =
          (build_graph [c3NoteA, c3NoteB]).edges.length +
            (build_graph [c3NoteA, c3NoteB]).typed_edges.length ∧
        sumOutDegree (build_graph [c3NoteA, c3NoteB]) =
          (build_graph [c3NoteA, c3NoteB]).edges.length +
            (build_graph [c3NoteA, c3NoteB]).typed_edges.length) := by
  decide

/-- C3 amended: for every node of a built graph (distinct corpus paths),
degree = in_degree + out_degree; the sum of in_degree over all nodes equals
the total number of edges, untyped plus typed; the sum of out_degree equals
the untyped edge count plus the number of untyped self-references, so it
falls short of sum(in_degree) by the typed-edge count less self-references
and the two sums need not agree. -/
theorem claim_C3_amended (notes : List Note)
    (hN : (notes.map (fun n => n.path)).Nodup) :
    (∀ p nd, (p, nd) ∈ (build_graph notes).nodes → nd.degree = nd.in_degree + nd.out_degree) ∧
    sumInDegree (build_graph notes) =
      (build_graph notes).edges.length + (build_graph notes).typed_edges.length ∧
    sumOutDegree (build_graph notes) =
      (build_graph notes).edges.length + selfRefCount notes := by
  refine ⟨?_, ?_, ?_⟩
  · intro p nd hmem
    rw [build_graph_nodes_eq] at hmem
    rcases List.mem_map.mp hmem with ⟨n, _, heq⟩
    injection heq with h1 h2
    subst h2
    rfl
  · rw [sumInDegree_build]
    have hA := sum_countP_eq_length (notes.map (fun n => n.path)) hN (untypedEdges notes)
      (fun e => e.target) (fun e he => untypedEdges_target_mem notes e he)
    have hB := sum_countP_eq_length (notes.map (fun n => n.path)) hN (typedEdgesOf notes)
      (fun e => e.target) (fun e he => typedEdges_target_mem notes e he)
    rw [List.map_map] at hA hB
    show (notes.map (fun n => (untypedEdges notes).countP (fun e => e.target = n.path))).sum +
        (notes.map (fun n => (typedEdgesOf notes).countP (fun e => e.target = n.path))).sum =
      (untypedEdges notes).length + (typedEdgesOf notes).length
    rw [show (notes.map (fun n => (untypedEdges notes).countP (fun e => e.target = n.path))) =
        (notes.map ((fun p => (untypedEdges notes).countP (fun e => e.target = p)) ∘
          (fun n => n.path))) from rfl]
    rw [show (notes.map (fun n => (typedEdgesOf notes).countP (fun e => e.target = n.path))) =
        (notes.map ((fun p => (typedEdgesOf notes).countP (fun e => e.target = p)) ∘
          (fun n => n.path))) from rfl]
    rw [hA, hB]
  · rw [sumOutDegree_build]
    show _ = (untypedEdges notes).length + selfRefCount notes
    rw [untypedEdges_length]
    unfold selfRefCount
    rw [← List.sum_map_add]
    apply congrArg List.sum
    apply List.map_congr_left
    intro n _
    rw [List.length_eq_countP_add_countP (fun x => x = n.path), Nat.add_comm]
    congr 1
    apply List.countP_congr
    intro a _
    simp

/-- Witness for the amended C3 at the counterexample corpus. -/
theorem claim_C3_witness :
    (∀ p nd, (p, nd) ∈ (build_graph [c3NoteA, c3NoteB]).nodes →
      nd.degree = nd.in_degree + nd.out_degree) ∧
    sumInDegree (build_graph [c3NoteA, c3NoteB]) =
      (build_graph [c3NoteA, c3NoteB]).edges.length +
        (build_graph [c3NoteA, c3NoteB]).typed_edges.length ∧
    sumOutDegree (build_graph [c3NoteA, c3NoteB]) =
      (build_graph [c3NoteA, c3NoteB]).edges.length + selfRefCount [c3NoteA, c3NoteB] :=
  claim_C3_amended [c3NoteA, c3NoteB] (by decide)

/-! ## C4: reciprocal rank fusion -/

theorem lastRank_mem (l : List String) (p : String) (r : ℕ) (h : lastRank l p = some r) :
    p ∈ l := by
  induction l generalizing r with
  | nil => cases h
  | cons a t ih =>
    simp only [lastRank] at h
    rcases h2 : lastRank t p with _ | r2
    · rw [h2] at h
      by_cases hap : a = p
      · exact hap ▸ List.mem_cons_self _ _
      · rw [if_neg hap] at h
        cases h
    · rw [h2] at h
      exact List.mem_cons_of_mem _ (ih r2 h2)

theorem mem_lastRank (l : List String) (p : String) (h : p ∈ l) :
    ∃ r, lastRank l p = some r := by
  induction l with
  | nil => cases h
  | cons a t ih =>
    simp only [lastRank]
    rcases h2 : lastRank t p with _ | r2
    · rcases List.mem_cons.mp h with rfl | hpt
      · exact ⟨0, by rw [if_pos rfl]⟩
      · rcases ih hpt with ⟨r, hr⟩
        rw [h2] at hr
        cases hr
    · exact ⟨r2 + 1, rfl⟩

theorem lastRank_eq_iff (l : List String) (hN : l.Nodup) (p : String) (r : ℕ) :
    lastRank l p = some r ↔ l.get? r = some p := by
  induction l generalizing r with
  | nil => simp [lastRank]
  | cons a t ih =>
    have hhead := (List.nodup_cons.mp hN).1
    have htail := (List.nodup_cons.mp hN).2
    simp only [lastRank]
    rcases h2 : lastRank t p with _ | r2
    · have hpt : p ∉ t := by
        intro hmem
        rcases mem_lastRank t p hmem with ⟨r3, hr3⟩
        rw [h2] at hr3
        cases hr3
      by_cases hap : a = p
      · subst hap
        rw [if_pos rfl]
        cases r with
        | zero => simp
        | succ k =>
          simp only [List.get?]
          constructor
          · intro hEq
            simp at hEq
          · intro hEq
            exact absurd (List.get?_mem hEq) hpt
      · rw [if_neg hap]
        cases r with
        | zero =>
          simp only [List.get?]
          constructor
          · intro hEq
            simp at hEq
          · intro hEq
            have h3 : a = p := by simpa using hEq
            exact absurd h3 hap
        | succ k =>
          simp only [List.get?]
          constructor
          · intro hEq
            simp at hEq
          · intro hEq
            exact absurd (List.get?_mem hEq) hpt
    · have hpt : p ∈ t := lastRank_mem t p r2 h2
      have hap : a ≠ p := by
        intro hEq
        exact hhead (hEq ▸ hpt)
      cases r with
      | zero =>
        simp only [List.get?]
        constructor
        · intro hEq
          simp at hEq
        · intro hEq
          have h3 : a = p := by simpa using hEq
          exact absurd h3 hap
      | succ k =>
        simp only [List.get?]
        rw [← ih htail k, h2]
        simp only [Option.some.injEq]
        omega

/-- C4: with distinct paths per source list, every fused result carries the
weighted reciprocal-rank score (k = 60, 0-based ranks, zero term when a
path is absent from a list, centrality scaled by 1/(k+1)); the weights
0.7/0.3/0.1 are renormalised to sum to 1 exactly when centrality data is
present, and with no centrality data only the raw 0.7/0.3 weights apply
with a zero graph term; the output is sorted by fused score descending and
contains exactly the union of the two path lists; lastRank is the 0-based
rank in each list. -/
theorem claim_C4 (fts vec : List String) (deg : List (String × ℚ))
    (hf : fts.Nodup) (hv : vec.Nodup) :
    (deg ≠ [] →
      (fusedWeights deg (7/10) (3/10) (1/10)).1 +
      (fusedWeights deg (7/10) (3/10) (1/10)).2.1 +
      (fusedWeights deg (7/10) (3/10) (1/10)).2.2 = 1) ∧
    (∀ p r, lastRank fts p = some r ↔ fts.get? r = some p) ∧
    (∀ p r, lastRank vec p = some r ↔ vec.get? r = some p) ∧
    (∀ p s, (p, s) ∈ hybrid_search fts vec deg (7/10) (3/10) (1/10) →
      s = if deg = [] then (7/10) * rrfOf fts p + (3/10) * rrfOf vec p
          else (7/11) * rrfOf fts p + (3/11) * rrfOf vec p +
            (1/11) * degOf deg p * (1/61)) ∧
    List.Sorted byScoreDesc (hybrid_search fts vec deg (7/10) (3/10) (1/10)) ∧
    (∀ p, (∃ s, (p, s) ∈ hybrid_search fts vec deg (7/10) (3/10) (1/10)) ↔
      p ∈ fts ∨ p ∈ vec) := by
  refine ⟨?_, fun p r => lastRank_eq_iff fts hf p r, fun p r => lastRank_eq_iff vec hv p r,
    ?_, ?_, ?_⟩
  · intro hdeg
    simp only [fusedWeights, if_neg hdeg]
    norm_num
  · intro p s hmem
    have hmem2 : (p, s) ∈ ((fts ++ vec).dedup).map
        (fun q => (q, fusion_score deg (7/10) (3/10) (1/10) fts vec q)) :=
      (List.perm_insertionSort byScoreDesc _).mem_iff.mp hmem
    rcases List.mem_map.mp hmem2 with ⟨q, _, heq⟩
    injection heq with h1 h2
    subst h1
    rw [← h2]
    by_cases hdeg : deg = []
    · rw [if_pos hdeg]
      simp only [fusion_score, fusedWeights, if_pos hdeg]
      ring
    · rw [if_neg hdeg]
      simp only [fusion_score, fusedWeights, if_neg hdeg]
      rw [show rrfK + 1 = 61 from by norm_num [rrfK]]
      norm_num
  · exact List.sorted_insertionSort byScoreDesc _
  · intro p
    constructor
    · rintro ⟨s, hmem⟩
      have hmem2 : (p, s) ∈ ((fts ++ vec).dedup).map
          (fun q => (q, fusion_score deg (7/10) (3/10) (1/10) fts vec q)) :=
        (List.perm_insertionSort byScoreDesc _).mem_iff.mp hmem
      rcases List.mem_map.mp hmem2 with ⟨q, hq, heq⟩
      injection heq with h1 _
      subst h1
      exact List.mem_append.mp (List.mem_dedup.mp hq)
    · intro hpu
      refine ⟨fusion_score deg (7/10) (3/10) (1/10) fts vec p, ?_⟩
      apply (List.perm_insertionSort byScoreDesc _).mem_iff.mpr
      exact List.mem_map.mpr ⟨p, List.mem_dedup.mpr (List.mem_append.mpr hpu), rfl⟩

/-- Witness for C4 at concrete Nodup result lists with centrality data. -/
theorem claim_C4_witness :
    List.Sorted byScoreDesc
      (hybrid_search ["a", "b"] ["b", "c"] [("a", 1/2)] (7/10) (3/10) (1/10)) :=
  (claim_C4 ["a", "b"] ["b", "c"] [("a", 1/2)] (by decide) (by decide)).2.2.2.2.1

/-! ## C6 and C7: BFS reachability -/

theorem mem_adjSet_iff (g : Graph) (p q : String) :
    q ∈ adjSet g p ↔
      ∃ st ∈ validPairs g, (st.1 = p ∧ st.2 = q) ∨ (st.2 = p ∧ st.1 = q) := by
  unfold adjSet
  rw [List.mem_toFinset, List.mem_append]
  constructor
  · intro h
    rcases h with h | h
    · rcases List.mem_filterMap.mp h with ⟨st, hst, hmk⟩
      by_cases h1 : st.1 = p
      · rw [if_pos h1] at hmk
        injection hmk with h2
        exact ⟨st, hst, Or.inl ⟨h1, h2⟩⟩
      · rw [if_neg h1] at hmk
        cases hmk
    · rcases List.mem_filterMap.mp h with ⟨st, hst, hmk⟩
      by_cases h1 : st.2 = p
      · rw [if_pos h1] at hmk
        injection hmk with h2
        exact ⟨st, hst, Or.inr ⟨h1, h2⟩⟩
      · rw [if_neg h1] at hmk
        cases hmk
  · rintro ⟨st, hst, ⟨h1, h2⟩ | ⟨h1, h2⟩⟩
    · exact Or.inl (List.mem_filterMap.mpr ⟨st, hst, by rw [if_pos h1, h2]⟩)
    · exact Or.inr (List.mem_filterMap.mpr ⟨st, hst, by rw [if_pos h1, h2]⟩)

theorem adjSet_symm (g : Graph) (p q : String) : q ∈ adjSet g p ↔ p ∈ adjSet g q := by
  rw [mem_adjSet_iff, mem_adjSet_iff]
  constructor
  · rintro ⟨st, hst, h | h⟩
    · exact ⟨st, hst, Or.inr ⟨h.2, h.1⟩⟩
    · exact ⟨st, hst, Or.inl ⟨h.2, h.1⟩⟩
  · rintro ⟨st, hst, h | h⟩
    · exact ⟨st, hst, Or.inr ⟨h.2, h.1⟩⟩
    · exact ⟨st, hst, Or.inl ⟨h.2, h.1⟩⟩

theorem adjSet_subset_nodes (g : Graph) (p : String) :
    ∀ q ∈ adjSet g p, q ∈ nodePaths g := by
  intro q hq
  rcases (mem_adjSet_iff g p q).mp hq with ⟨st, hst, h | h⟩
  · have hv := List.mem_filter.mp hst
    have hg : st.1 ∈ nodePaths g ∧ st.2 ∈ nodePaths g := by simpa using hv.2
    exact h.2 ▸ hg.2
  · have hv := List.mem_filter.mp hst
    have hg : st.1 ∈ nodePaths g ∧ st.2 ∈ nodePaths g := by simpa using hv.2
    exact h.2 ▸ hg.1

theorem subset_bfsStep (g : Graph) (x : Finset String) : x ⊆ bfsStep g x :=
  Finset.subset_union_left

theorem bfsStep_mono (g : Graph) {x y : Finset String} (h : x ⊆ y) :
    bfsStep g x ⊆ bfsStep g y :=
  Finset.union_subset_union h (Finset.biUnion_subset_biUnion_of_subset_left _ h)

theorem reachSet_mono_succ (g : Graph) (a : String) (n : ℕ) :
    reachSet g a n ⊆ reachSet g a (n + 1) :=
  subset_bfsStep g (reachSet g a n)

theorem reachSet_mono (g : Graph) (a : String) {m n : ℕ} (h : m ≤ n) :
    reachSet g a m ⊆ reachSet g a n := by
  induction n with
  | zero =>
    rw [Nat.le_zero.mp h]
  | succ k ih =>
    rcases Nat.lt_or_ge m (k + 1) with hlt | hge
    · exact (ih (Nat.lt_succ_iff.mp hlt)).trans (reachSet_mono_succ g a k)
    · rw [le_antisymm h hge]

theorem reachSet_sound (g : Graph) (a : String) (n : ℕ) :
    ∀ x ∈ reachSet g a n, Reaches g a x := by
  induction n with
  | zero =>
    intro x hx
    rw [reachSet, Finset.mem_singleton] at hx
    subst hx
    exact Relation.ReflTransGen.refl
  | succ n ih =>
    intro x hx
    rw [reachSet, bfsStep] at hx
    rcases Finset.mem_union.mp hx with h | h
    · exact ih x h
    · rcases Finset.mem_biUnion.mp h with ⟨p, hp, hxp⟩
      exact Relation.ReflTransGen.tail (ih p hp) hxp

theorem reachSet_complete_ex (g : Graph) (a x : String) (h : Reaches g a x) :
    ∃ n, x ∈ reachSet g a n := by
  induction h with
  | refl => exact ⟨0, by rw [reachSet]; exact Finset.mem_singleton_self a⟩
  | tail _ hbc ih =>
      rcases ih with ⟨n, hn⟩
      exact ⟨n + 1, by
        rw [reachSet, bfsStep]
        exact Finset.mem_union_right _ (Finset.mem_biUnion.mpr ⟨_, hn, hbc⟩)⟩

theorem reachSet_subset_nodes (g : Graph) (a : String) (ha : a ∈ nodePaths g) (n : ℕ) :
    reachSet g a n ⊆ (nodePaths g).toFinset := by
  induction n with
  | zero =>
    intro x hx
    rw [reachSet, Finset.mem_singleton] at hx
    subst hx
    exact List.mem_toFinset.mpr ha
  | succ n ih =>
    intro x hx
    rw [reachSet, bfsStep] at hx
    rcases Finset.mem_union.mp hx with h | h
    · exact ih h
    · rcases Finset.mem_biUnion.mp h with ⟨p, _, hxp⟩
      exact List.mem_toFinset.mpr (adjSet_subset_nodes g p x hxp)

theorem reachSet_stab (g : Graph) (a : String) (n : ℕ)
    (h : reachSet g a (n + 1) = reachSet g a n) :
    ∀ m, n ≤ m → reachSet g a m = reachSet g a n := by
  intro m hm
  induction m with
  | zero =>
    rw [Nat.le_zero.mp hm]
  | succ k ih =>
    rcases Nat.lt_or_ge n (k + 1) with hlt | hge
    · have hk := ih (Nat.lt_succ_iff.mp hlt)
      rw [reachSet, hk]
      rw [show bfsStep g (reachSet g a n) = reachSet g a (n + 1) from rfl, h]
    · rw [le_antisymm hm hge]

theorem reachSet_growth (g : Graph) (a : String) (n : ℕ)
    (h : ∀ j, j < n → reachSet g a (j + 1) ≠ reachSet g a j) :
    n + 1 ≤ (reachSet g a n).card := by
  induction n with
  | zero => simp [reachSet]
  | succ k ih =>
    have hk := ih (fun j hj => h j (Nat.lt_succ_of_lt hj))
    have hne : reachSet g a (k + 1) ≠ reachSet g a k := h k (Nat.lt_succ_self k)
    have hsub : reachSet g a k ⊆ reachSet g a (k + 1) := reachSet_mono_succ g a k
    have hcard : (reachSet g a k).card < (reachSet g a (k + 1)).card :=
      Finset.card_lt_card (Finset.ssubset_iff_subset_ne.mpr ⟨hsub, Ne.symm hne⟩)
    omega

theorem reachSet_saturates (g : Graph) (a : String) (ha : a ∈ nodePaths g) :
    ∃ j, j < (nodePaths g).toFinset.card ∧ reachSet g a (j + 1) = reachSet g a j := by
  by_contra hcon
  push_neg at hcon
  have hgrow := reachSet_growth g a ((nodePaths g).toFinset.card) hcon
  have hle := Finset.card_le_card (reachSet_subset_nodes g a ha ((nodePaths g).toFinset.card))
  omega

theorem reachSet_complete (g : Graph) (a x : String) (ha : a ∈ nodePaths g)
    (h : Reaches g a x) : x ∈ reachSet g a ((nodePaths g).toFinset.card) := by
  rcases reachSet_complete_ex g a x h with ⟨n, hn⟩
  rcases reachSet_saturates g a ha with ⟨j, hjN, hj⟩
  rcases le_or_lt n ((nodePaths g).toFinset.card) with hle | hgt
  · exact reachSet_mono g a hle hn
  · have h1 : reachSet g a n = reachSet g a j := reachSet_stab g a j hj n (by omega)
    have h2 : reachSet g a ((nodePaths g).toFinset.card) = reachSet g a j :=
      reachSet_stab g a j hj _ (by omega)
    rw [h2, ← h1]
    exact hn

/-- C6: for a node a of the graph, shortest_path g a a reports a path of
length 0; undirected reachability is symmetric (edges are traversed both
ways); and for nodes a and b, shortest_path g a b reports the explicit
no-path result exactly when b is not reachable from a over the undirected
adjacency merging untyped and typed edges, i.e. when a and b lie in
different connected components. -/
theorem claim_C6 (g : Graph) (a b : String) (ha : a ∈ nodePaths g)
    (hb : b ∈ nodePaths g) :
    shortest_path g a a = SPResult.found 0 ∧
    (Reaches g a b ↔ Reaches g b a) ∧
    (shortest_path g a b = SPResult.noPath ↔ ¬ Reaches g a b) := by
  have hsymm : Symmetric (fun x y => y ∈ adjSet g x) := by
    intro x y h
    exact (adjSet_symm g x y).mp h
  refine ⟨?_, ⟨fun h => (Relation.ReflTransGen.symmetric hsymm) h,
    fun h => (Relation.ReflTransGen.symmetric hsymm) h⟩, ?_⟩
  · unfold shortest_path
    rw [if_neg (not_not_intro ha), if_neg (not_not_intro ha)]
    have hfind : (List.range ((nodePaths g).length + 1)).find?
        (fun d => decide (a ∈ reachSet g a d)) = some 0 := by
      rw [List.range_succ_eq_map]
      apply List.find?_cons_of_pos
      simp [reachSet]
    rw [hfind]
  · constructor
    · intro hnp hreach
      have hbr : b ∈ reachSet g a ((nodePaths g).toFinset.card) :=
        reachSet_complete g a b ha hreach
      unfold shortest_path at hnp
      rw [if_neg (not_not_intro ha), if_neg (not_not_intro hb)] at hnp
      rcases hfind : (List.range ((nodePaths g).length + 1)).find?
          (fun d => decide (b ∈ reachSet g a d)) with _ | d
      · have hall := List.find?_eq_none.mp hfind
        have hmem : (nodePaths g).toFinset.card ∈ List.range ((nodePaths g).length + 1) := by
          rw [List.mem_range]
          have := List.toFinset_card_le (nodePaths g)
          omega
        have hneg := hall _ hmem
        simp only [decide_eq_true_eq] at hneg
        exact hneg hbr
      · rw [hfind] at hnp
        cases hnp
    · intro hnr
      unfold shortest_path
      rw [if_neg (not_not_intro ha), if_neg (not_not_intro hb)]
      have hfind : (List.range ((nodePaths g).length + 1)).find?
          (fun d => decide (b ∈ reachSet g a d)) = none := by
        rw [List.find?_eq_none]
        intro d _
        simp only [decide_eq_true_eq]
        intro hbm
        exact hnr (reachSet_sound g a d b hbm)
      rw [hfind]

/-- C7: traverse at depth 0 returns exactly the start node as the single
distance-0 layer with zero reachable nodes; the traverse result is the
layer list plus reachable count for any depth; the reachable count is
monotonically non-decreasing in the depth; and it never exceeds the size
of the connected component of the start node. -/
theorem claim_C7 (g : Graph) (s : String) (hs : s ∈ nodePaths g) :
    bfs_traverse g s 0 = some ([(0, {s})], 0) ∧
    (∀ d, bfs_traverse g s d = some (traverseLayers g s d, traverseCount g s d)) ∧
    (∀ d d2, d ≤ d2 → traverseCount g s d ≤ traverseCount g s d2) ∧
    (∀ d, traverseCount g s d ≤ Set.ncard {x | x ∈ nodePaths g ∧ Reaches g s x}) := by
  refine ⟨?_, ?_, ?_, ?_⟩
  · unfold bfs_traverse
    rw [if_pos hs]
    have hlay : traverseLayers g s 0 = [(0, ({s} : Finset String))] := by
      have h1 : newLayer g s 0 ≠ ∅ := Finset.singleton_ne_empty s
      unfold traverseLayers
      rw [show List.range (0 + 1) = [0] from rfl]
      simp only [List.filterMap_cons, List.filterMap_nil, if_neg h1]
      rfl
    have hcount : traverseCount g s 0 = 0 := by
      unfold traverseCount
      simp [reachSet]
    rw [hlay, hcount]
  · intro d
    unfold bfs_traverse
    rw [if_pos hs]
  · intro d d2 h
    unfold traverseCount
    exact Nat.sub_le_sub_right (Finset.card_le_card (reachSet_mono g s h)) 1
  · intro d
    unfold traverseCount
    have hsub : ↑(reachSet g s d) ⊆ {x : String | x ∈ nodePaths g ∧ Reaches g s x} := by
      intro x hx
      rw [Finset.mem_coe] at hx
      exact ⟨List.mem_toFinset.mp (reachSet_subset_nodes g s hs d hx),
        reachSet_sound g s d x hx⟩
    have hfin : ({x : String | x ∈ nodePaths g ∧ Reaches g s x}).Finite := by
      apply Set.Finite.subset ((nodePaths g).finite_toSet)
      intro x hx
      exact hx.1
    have hcard : (reachSet g s d).card ≤ Set.ncard {x | x ∈ nodePaths g ∧ Reaches g s x} := by
      rw [← Set.ncard_coe_Finset]
      exact Set.ncard_le_ncard hsub hfin
    omega

/-- A concrete three-node graph: A - B linked, C isolated. -/
def wGraph : Graph :=
  { nodes :=
      [("A", { title := "A", noteType := none, classification := "personal", tags := [],
               out_degree := 1, in_degree := 0, degree := 1 }),
       ("B", { title := "B", noteType := none, classification := "personal", tags := [],
               out_degree := 0, in_degree := 1, degree := 1 }),
       ("C", { title := "C", noteType := none, classification := "personal", tags := [],
               out_degree := 0, in_degree := 0, degree := 0 })]
    edges := [{ source := "A", target := "B" }]
    typed_edges := [] }

/-- Witness for C6 on the concrete graph (A and C are distinct components). -/
theorem claim_C6_witness : shortest_path wGraph "A" "A" = SPResult.found 0 :=
  (claim_C6 wGraph "A" "C" (by decide) (by decide)).1

/-- Witness for C7 on the concrete graph. -/
theorem claim_C7_witness :
    bfs_traverse wGraph "A" 0 = some ([(0, {"A"})], 0) :=
  (claim_C7 wGraph "A" (by decide)).1

/-! ## C1 and C2: failing-input evaluations -/

/-- A note that was embedded while public (stale store entry at mtime 1)
and has since been reclassified secret (file mtime 2). -/
def secretNote : Note :=
  { path := "S.md", stem := "S", title := none, noteType := none,
    classification := some "secret", tags := [], created := none, status := none,
    verified := none, encrypted := false, body := "s", bodyLinks := [], fmLinks := [],
    relationships := [], mtime := 2 }

/-- The embedding-store entry left over from when the note was public. -/
def staleEntry : EmbEntry :=
  { title := "S", noteType := none, mtime := 1, vector := [1] }

/-- C1, failing input: a document reclassified secret whose store entry is
stale, with no other document needing embedding.  The selection loop pops
the entry in memory, but the run then takes the early everything-up-to-date
return without saving, so the persisted store still contains the secret
document and vector search can return it.  The claim says the entry is
pruned and the document never appears in search results. -/
theorem claim_C1 :
    secretNote.classification = some "secret" ∧
    staleEntry.mtime < secretNote.mtime ∧
    build_embeddings [("S.md", staleEntry)] [secretNote] (fun _ => []) =
      [("S.md", staleEntry)] ∧
    "S.md" ∈ (build_embeddings [("S.md", staleEntry)] [secretNote] (fun _ => [])).map
      (fun e => e.1) := by
  decide

/-- A plain unchanged note for the C2 failing input. -/
def idxNote : Note :=
  { path := "N.md", stem := "N", title := none, noteType := none, classification := none,
    tags := [], created := none, status := none, verified := none, encrypted := false,
    body := "hello", bodyLinks := [], fmLinks := [], relationships := [], mtime := 1 }

/-- C2, failing input: build the lexical index twice over one unchanged
note.  The second run indexes zero documents and removes zero (the
freshness-token check works and the notes table is unchanged), but
create_schema drops and recreates the external-content FTS table on every
run while the rebuild command only fires when at least one row changed, so
after the second run the FTS index is empty and a query that returned the
note before the second run returns nothing after it.  The claim says the
second run leaves a semantically identical index and search results are
unchanged. -/
theorem claim_C2 :
    (build_index (build_index emptyIndexDB [idxNote]).1 [idxNote]).2.1 = 0 ∧
    (build_index (build_index emptyIndexDB [idxNote]).1 [idxNote]).2.2 = 0 ∧
    (build_index (build_index emptyIndexDB [idxNote]).1 [idxNote]).1.notes =
      (build_index emptyIndexDB [idxNote]).1.notes ∧
    fts5_search (fun _ => Except.ok (fun _ => true))
      (build_index emptyIndexDB [idxNote]).1 ['h'] none ["secret"] ≠ [] ∧
    fts5_search (fun _ => Except.ok (fun _ => true))
      (build_index (build_index emptyIndexDB [idxNote]).1 [idxNote]).1
      ['h'] none ["secret"] = [] := by
  decide
